import Mathlib

/-!
Verification of the Python2Neo repository (src/project2neo.py and
src/python2neo.py) against its natural-language specification.

The embedding models the Python AST fragment the extractor inspects
(import statements, from-imports, class definitions, function
definitions, simple assignments), the two parse functions, the file
walker, and the Neo4j writing layer.  File reading and `ast.parse` are
external capabilities; their outcome is modelled by `ParseOutcome`
(a parsed statement list, or one of the failure kinds the Python
`except Exception` clause catches).  The Neo4j store is modelled as
explicit lists of created nodes and edges: `neomodel` `.save()` on a
fresh instance unconditionally creates a node, and `.connect` appends a
relationship; both are reflected literally.
-/

set_option autoImplicit false

namespace Python2Neo

/-- Assignment target of an `ast.Assign` statement: an identifier
(`ast.Name`) or any other target form (attribute, subscript, tuple, ...). -/
inductive Target where
  | name (id : String)
  | otherTarget

/-- The statement fragment of the Python AST that the extractors inspect.
`importStmt` is `ast.Import` (one entry per alias name), `importFrom` is
`ast.ImportFrom` with its optional module, alias names and relative
level, and bodies of class / function definitions are nested statement
lists.  `functionDef` records `item.args.args` as the list of positional
parameter names.  `exprStmt` stands for every other statement kind. -/
inductive Stmt where
  | importStmt (names : List String)
  | importFrom (module : Option String) (names : List String) (level : Nat)
  | classDef (name : String) (body : List Stmt)
  | functionDef (name : String) (args : List String) (body : List Stmt)
  | asyncFunctionDef (name : String) (args : List String) (body : List Stmt)
  | assign (targets : List Target)
  | exprStmt

/-- A run of n dot characters (Python builds it by repeating a dot n times). -/
def dots : Nat → String
  | 0 => ""
  | n + 1 => "." ++ dots n

/-- The reference text `ImportVisitor.visit_ImportFrom` records for a
from-import with module part `m` and relative level `level`: the bare
module text when the level is 0, otherwise one leading dot, then level
minus one further dots, then the module text. -/
def importFromRef (m : String) (level : Nat) : String :=
  if level = 0 then m else "." ++ dots (level - 1) ++ m

mutual

/-- Models `ImportVisitor` on one statement: `visit_Import` appends
every alias name; `visit_ImportFrom` appends one reference per alias
when `node.module` is non-empty (the `if node.module:` guard) and
nothing otherwise; every other node is traversed recursively in
document order (`generic_visit`). -/
def visitStmt : Stmt → List String
  | .importStmt names => names
  | .importFrom m names level =>
      match m with
      | some m => names.map (fun _ => importFromRef m level)
      | none => []
  | .classDef _ body => visitBody body
  | .functionDef _ _ body => visitBody body
  | .asyncFunctionDef _ _ body => visitBody body
  | .assign _ => []
  | .exprStmt => []

/-- Models `ImportVisitor` over a statement list, in order. -/
def visitBody : List Stmt → List String
  | [] => []
  | s :: rest => visitStmt s ++ visitBody rest

end

/-- Child statements of a statement, as `ast.iter_child_nodes` yields
them (only statement-kind children matter to the extractor). -/
def children : Stmt → List Stmt
  | .classDef _ body => body
  | .functionDef _ _ body => body
  | .asyncFunctionDef _ _ body => body
  | _ => []

mutual

/-- Number of AST statement nodes in one statement (itself included). -/
def countStmt : Stmt → Nat
  | .importStmt _ => 1
  | .importFrom _ _ _ => 1
  | .classDef _ body => 1 + countBody body
  | .functionDef _ _ body => 1 + countBody body
  | .asyncFunctionDef _ _ body => 1 + countBody body
  | .assign _ => 1
  | .exprStmt => 1

/-- Number of AST statement nodes in a statement list. -/
def countBody : List Stmt → Nat
  | [] => 0
  | s :: rest => countStmt s + countBody rest

end

/-- The breadth-first queue loop of `ast.walk`; the fuel argument only
bounds the number of loop iterations (each iteration pops one node),
and `countBody` fuel is exactly enough, see `walk_cons`. -/
def walkAux : Nat → List Stmt → List Stmt
  | 0, _ => []
  | _ + 1, [] => []
  | fuel + 1, s :: rest => s :: walkAux fuel (rest ++ children s)

/-- Models `ast.walk`: breadth-first traversal yielding every node.  The
traversal starts from the module body (the `ast.Module` root itself is
not a statement and is never a `ClassDef`, so omitting it is faithful
for the extractor). -/
def walk (l : List Stmt) : List Stmt :=
  walkAux (countBody l) l

/-- One entry of a `class_info["methods"]` list. -/
structure MethodInfo where
  name : String
  full_name : String
  args : List String
deriving DecidableEq

/-- One entry of a `class_info["attributes"]` list. -/
structure AttrInfo where
  name : String
  full_name : String
deriving DecidableEq

/-- A `class_info` dictionary of `project2neo.parse_python_file`. -/
structure ClassInfo where
  name : String
  full_name : String
  methods : List MethodInfo
  attributes : List AttrInfo
deriving DecidableEq

/-- The per-file record `project2neo.parse_python_file` returns.  The
file path is kept as its component list; the scan root components are a
prefix of it for discovered files. -/
structure ModuleRecord where
  path : List String
  name : String
  imports : List String
  classes : List ClassInfo
deriving DecidableEq

/-- Outcome of opening, decoding and `ast.parse`-ing one file.  The
three failure kinds (`OSError`, `UnicodeDecodeError`, `SyntaxError`) are
all subclasses of `Exception` and are caught by the `except Exception`
clause of `project2neo.parse_python_file`. -/
inductive ParseOutcome where
  | ok (tree : List Stmt)
  | readError
  | decodeError
  | parseError

/-- The Python `str.endswith` test: does `s` end with the characters of
`suffixText`? -/
def strEndsWith (s suffixText : String) : Bool :=
  suffixText.toList.isSuffixOf s.toList

/-- The Python slice `s[:-n]`: `s` without its last `n` characters. -/
def strDropLast (s : String) (n : Nat) : String :=
  ⟨s.toList.take (s.toList.length - n)⟩

/-- Models `os.path.relpath(file_path, project_root)` on component
lists, for the paths this pipeline produces (the walker only yields
paths under the root, where relpath is plain prefix removal). -/
def relpath (file_path project_root : List String) : List String :=
  if project_root.isPrefixOf file_path then file_path.drop project_root.length
  else file_path

namespace project2neo

/-- The method/attribute extraction loop over one class body
(`for item in node.body` with its `if`/`elif` chain): a function or
async-function definition contributes a method whose recorded
parameters are the positional argument names with every name equal
to "self" filtered out;
an assignment with exactly one target which is a `Name` contributes an
attribute named after that identifier. -/
def classMembers (module_path clsName : String) :
    List Stmt → List MethodInfo × List AttrInfo
  | [] => ([], [])
  | item :: rest =>
      let tail := classMembers module_path clsName rest
      match item with
      | .functionDef n args _ =>
          (⟨n, module_path ++ "." ++ clsName ++ "." ++ n,
            args.filter (fun a => a != "self")⟩ :: tail.1, tail.2)
      | .asyncFunctionDef n args _ =>
          (⟨n, module_path ++ "." ++ clsName ++ "." ++ n,
            args.filter (fun a => a != "self")⟩ :: tail.1, tail.2)
      | .assign targets =>
          if targets.length = 1 then
            match targets with
            | [Target.name id] =>
                (tail.1, ⟨id, module_path ++ "." ++ clsName ++ "." ++ id⟩ :: tail.2)
            | _ => tail
          else tail
      | _ => tail

/-- One node of the walk: a `ClassDef` yields one `class_info`
dictionary with `full_name = f"{module_path}.{node.name}"`; every other
node kind yields nothing. -/
def classInfoOf (module_path : String) (node : Stmt) : Option ClassInfo :=
  match node with
  | .classDef name body =>
      let ms := classMembers module_path name body
      some ⟨name, module_path ++ "." ++ name, ms.1, ms.2⟩
  | _ => none

/-- The class-collection loop: `for node in ast.walk(tree)` keeping the
`ClassDef` nodes, each yielding one `class_info` dictionary. -/
def collectClasses (module_path : String) (tree : List Stmt) : List ClassInfo :=
  (walk tree).filterMap (classInfoOf module_path)

/-- Models `project2neo.parse_python_file`.  On a successful read and parse the
`try` block builds the full record: module name from the root-relative
path with separators replaced by `.` and a trailing `.py` cut off
(`module_path[:-3]`), imports from `ImportVisitor`, classes from the
walk.  Any exception lands in the `except Exception` branch, which
returns a record with empty imports and classes and a name that does
NOT strip the suffix. -/
def parse_python_file (file_path project_root : List String)
    (outcome : ParseOutcome) : ModuleRecord :=
  match outcome with
  | .ok tree =>
      let rel_path := relpath file_path project_root
      let module_path0 := String.intercalate "." rel_path
      let module_path :=
        if strEndsWith module_path0 ".py" then strDropLast module_path0 3 else module_path0
      { path := file_path
        name := module_path
        imports := visitBody tree
        classes := collectClasses module_path tree }
  | _ =>
      { path := file_path
        name := String.intercalate "." (relpath file_path project_root)
        imports := []
        classes := [] }

/-- Models `project2neo.find_and_parse_python_files`: `os.walk` enumeration is
modelled as the input list of file paths, each paired with its
read/parse outcome; files whose basename ends in `.py` are parsed in
walk order and every resulting record is collected. -/
def find_and_parse_python_files (project_root : List String)
    (walk_files : List (List String × ParseOutcome)) : List ModuleRecord :=
  (walk_files.filter (fun f => strEndsWith (f.1.getLastD "") ".py")).map
    (fun f => parse_python_file f.1 project_root f.2)

end project2neo

/-- A ModuleNode created in the store.  `id` is a fresh store identity
given at creation; `path` carries the `unique_index` property. -/
structure MNode where
  id : Nat
  path : List String
  name : String
deriving DecidableEq

/-- A ClassNode created in the store (`full_name` is the unique key). -/
structure CNode where
  id : Nat
  name : String
  full_name : String
deriving DecidableEq

/-- A MethodNode created in the store; `args` is the comma-joined
parameter string `", ".join(method["args"])`. -/
structure MethNode where
  id : Nat
  name : String
  full_name : String
  args : String
deriving DecidableEq

/-- An AttributeNode created in the store. -/
structure ANode where
  id : Nat
  name : String
  full_name : String
deriving DecidableEq

/-- A directed relationship between two stored nodes, by identity. -/
structure Edge where
  src : Nat
  tgt : Nat
deriving DecidableEq

/-- The graph store.  Every `.save()` on a fresh neomodel instance runs
a CREATE: it appends a brand-new node with a fresh identity, never
searching for an existing node with the same key.  `connect` appends a
relationship.  (Under the declared `unique_index` constraints the real
store rejects the CREATE of a duplicate key instead of storing it; the
model records the attempted creation itself.) -/
structure Store where
  nextId : Nat
  moduleNodes : List MNode
  classNodes : List CNode
  methodNodes : List MethNode
  attributeNodes : List ANode
  containsClassEdges : List Edge
  hasMethodEdges : List Edge
  hasAttributeEdges : List Edge
  importEdges : List Edge
deriving DecidableEq

/-- The store before any write of this run. -/
def emptyStore : Store := ⟨0, [], [], [], [], [], [], [], []⟩

namespace project2neo

/-- Models `MethodNode(...).save()` plus `class_node.methods.connect`. -/
def saveMethod (cid : Nat) (st : Store) (m : MethodInfo) : Store :=
  let mid := st.nextId
  { st with
      nextId := mid + 1
      methodNodes :=
        st.methodNodes ++ [⟨mid, m.name, m.full_name, String.intercalate ", " m.args⟩]
      hasMethodEdges := st.hasMethodEdges ++ [⟨cid, mid⟩] }

/-- Models `AttributeNode(...).save()` plus `class_node.attributes.connect`. -/
def saveAttribute (cid : Nat) (st : Store) (a : AttrInfo) : Store :=
  let aid := st.nextId
  { st with
      nextId := aid + 1
      attributeNodes := st.attributeNodes ++ [⟨aid, a.name, a.full_name⟩]
      hasAttributeEdges := st.hasAttributeEdges ++ [⟨cid, aid⟩] }

/-- The class block of the first loop of `save_project_to_neo4j`:
`ClassNode(...).save()`, connect it to the module, then create its
method and attribute nodes. -/
def saveClass (moduleId : Nat) (st : Store) (cls : ClassInfo) : Store :=
  let cid := st.nextId
  let st := { st with
      nextId := cid + 1
      classNodes := st.classNodes ++ [⟨cid, cls.name, cls.full_name⟩]
      containsClassEdges := st.containsClassEdges ++ [⟨moduleId, cid⟩] }
  let st := cls.methods.foldl (saveMethod cid) st
  cls.attributes.foldl (saveAttribute cid) st

/-- One iteration of the first loop: `ModuleNode(...).save()`, record it
in the `module_nodes` dict keyed by path (a later module with the same
path overwrites, so lookups find the most recent entry), then save the
classes of the module. -/
def saveModule (acc : Store × List (List String × Nat)) (m : ModuleRecord) :
    Store × List (List String × Nat) :=
  let st := acc.1
  let mid := st.nextId
  let st := { st with
      nextId := mid + 1
      moduleNodes := st.moduleNodes ++ [⟨mid, m.path, m.name⟩] }
  let module_nodes := (m.path, mid) :: acc.2
  (m.classes.foldl (saveClass mid) st, module_nodes)

/-- Lookup in the `module_nodes` dict (`module_nodes.get(path)`); the
entry list is consed at the front, so the first hit is the most recent
assignment, matching dict overwrite semantics. -/
def lookupNode : List (List String × Nat) → List String → Option Nat
  | [], _ => none
  | (p, i) :: rest, q => if p = q then some i else lookupNode rest q

/-- The inner resolution loop (`for target_module in modules`): the
scan stops at the first module whose name equals the reference or ends
with `"." + reference`, provided its node exists in the dict and is not
the source node itself (otherwise the scan continues — the `break` sits
inside that innermost guard). -/
def resolveImport (module_nodes : List (List String × Nat)) (sourceId : Nat)
    (importName : String) : List ModuleRecord → Option Nat
  | [] => none
  | t :: rest =>
      if t.name == importName || strEndsWith t.name ("." ++ importName) then
        match lookupNode module_nodes t.path with
        | some tid =>
            if tid ≠ sourceId then some tid
            else resolveImport module_nodes sourceId importName rest
        | none => resolveImport module_nodes sourceId importName rest
      else resolveImport module_nodes sourceId importName rest

/-- One raw import reference of a source module: resolve it against the
full modules list and, on success, `connect` one IMPORTS edge. -/
def connectOne (full : List ModuleRecord) (module_nodes : List (List String × Nat))
    (sid : Nat) (st : Store) (r : String) : Store :=
  match resolveImport module_nodes sid r full with
  | some tid => { st with importEdges := st.importEdges ++ [⟨sid, tid⟩] }
  | none => st

/-- One iteration of the outer loop of step 2: skip a module whose path
has no node (`if not source_node: continue`), otherwise process each of
its raw import references in order. -/
def connectModule (full : List ModuleRecord) (module_nodes : List (List String × Nat))
    (st : Store) (m : ModuleRecord) : Store :=
  match lookupNode module_nodes m.path with
  | none => st
  | some sid => m.imports.foldl (connectOne full module_nodes sid) st

/-- The second loop of `save_project_to_neo4j`: for every module (with a
node in the dict) and every recorded raw import reference, resolve it
against the full modules list and, on success, `connect` one IMPORTS
edge. -/
def connectImports (modules : List ModuleRecord)
    (module_nodes : List (List String × Nat)) (st : Store) : Store :=
  modules.foldl (connectModule modules module_nodes) st

/-- Models `project2neo.save_project_to_neo4j` run against a store in state
`st`: first create every module subtree (modules, classes, methods,
attributes and containment edges), then establish the import edges. -/
def save_project_to_neo4j (modules : List ModuleRecord) (st : Store) : Store :=
  let phase1 := modules.foldl saveModule (st, [])
  connectImports modules phase1.2 phase1.1

end project2neo

namespace python2neo

/-- One entry of a `class_info["methods"]` list in `python2neo.py`
(no `full_name` field there). -/
structure PyMethodInfo where
  name : String
  args : List String
deriving DecidableEq

/-- A `class_info` dictionary of `python2neo.parse_python_file`:
attributes are plain identifier strings. -/
structure PyClassInfo where
  name : String
  methods : List PyMethodInfo
  attributes : List String
deriving DecidableEq

/-- The member-extraction loop of `python2neo.parse_python_file`, the
same `if`/`elif` chain as in `project2neo` but without `full_name`. -/
def classMembers : List Stmt → List PyMethodInfo × List String
  | [] => ([], [])
  | item :: rest =>
      let tail := classMembers rest
      match item with
      | .functionDef n args _ =>
          (⟨n, args.filter (fun a => a != "self")⟩ :: tail.1, tail.2)
      | .asyncFunctionDef n args _ =>
          (⟨n, args.filter (fun a => a != "self")⟩ :: tail.1, tail.2)
      | .assign targets =>
          if targets.length = 1 then
            match targets with
            | [Target.name id] => (tail.1, id :: tail.2)
            | _ => tail
          else tail
      | _ => tail

/-- One node of the walk, `python2neo` shape (no `full_name`). -/
def classInfoOf (node : Stmt) : Option PyClassInfo :=
  match node with
  | .classDef name body =>
      let ms := classMembers body
      some ⟨name, ms.1, ms.2⟩
  | _ => none

/-- Models `python2neo.parse_python_file` on an already-parsed file (the
function itself opens and `ast.parse`-s the file with no exception
handling; the refinement claim compares the two extractors only on text
that parses successfully, so the model takes the parsed tree). -/
def parse_python_file (tree : List Stmt) : List PyClassInfo :=
  (walk tree).filterMap classInfoOf

end python2neo

/-! Support definitions for the specification statements. -/

/-- The module name the spec claims for every discovered file: the
root-relative path with separators replaced by `.` and the source-file
suffix stripped. -/
def claimedModuleName (file_path project_root : List String) : String :=
  let mp := String.intercalate "." (relpath file_path project_root)
  if strEndsWith mp ".py" then strDropLast mp 3 else mp

/-- A viable resolution candidate in a single left-to-right scan: the
module name equals the reference or ends with `"." + reference`, its
node is in the dict, and that node is not the source node.  Used to
state what the resolver actually implements (one combined scan, no
exact-match priority pass). -/
def importCandidate (module_nodes : List (List String × Nat)) (sourceId : Nat)
    (importName : String) (t : ModuleRecord) : Option Nat :=
  if t.name == importName || strEndsWith t.name ("." ++ importName) then
    match project2neo.lookupNode module_nodes t.path with
    | some tid => if tid ≠ sourceId then some tid else none
    | none => none
  else none

/-- Forget the `full_name` fields of a `project2neo` class record,
leaving exactly the shape `python2neo` extracts. -/
def forgetFullName (c : ClassInfo) : python2neo.PyClassInfo :=
  ⟨c.name, c.methods.map (fun m => ⟨m.name, m.args⟩), c.attributes.map (fun a => a.name)⟩

/-- A module record as produced for a file `a.py` containing
`class Foo:` with method `bar(self, x)` and attribute `y` (the spec
scenario of section 8). -/
def aModule : ModuleRecord :=
  ⟨["proj", "a.py"], "a", [],
   [⟨"Foo", "a.Foo", [⟨"bar", "a.Foo.bar", ["x"]⟩], [⟨"y", "a.Foo.y"⟩]⟩]⟩

/-- An index where a suffix-matching module (`x.numpy`) precedes the
exactly-matching module (`numpy`) in iteration order, and module `s`
imports `numpy`. -/
def suffixExample : List ModuleRecord :=
  [⟨["r", "x", "numpy.py"], "x.numpy", [], []⟩,
   ⟨["r", "numpy.py"], "numpy", [], []⟩,
   ⟨["r", "s.py"], "s", ["numpy"], []⟩]

/-- The spec scenario: `pkg/a.py` empty and `pkg/b.py` containing
`from . import a` (which the Python `ast` represents as
`ImportFrom(module=None, names=[a], level=1)`). -/
def pkgScenario : List (List String × ParseOutcome) :=
  [(["proj", "pkg", "a.py"], .ok []),
   (["proj", "pkg", "b.py"], .ok [Stmt.importFrom none ["a"] 1])]

/-- Module `a` textually imports both itself and `b`. -/
def selfImportExample : List ModuleRecord :=
  [⟨["r", "a.py"], "a", ["a", "b"], []⟩,
   ⟨["r", "b.py"], "b", [], []⟩]

/-! Lemmas about the BFS walk. -/

theorem countBody_append (a b : List Stmt) :
    countBody (a ++ b) = countBody a + countBody b := by
  induction a with
  | nil => simp [countBody]
  | cons s rest ih => simp [countBody, ih]; omega

theorem countStmt_children (s : Stmt) :
    countStmt s = 1 + countBody (children s) := by
  cases s <;> simp [countStmt, children, countBody]

theorem walkAux_fuel :
    ∀ fuel₁ fuel₂ l, countBody l ≤ fuel₁ → countBody l ≤ fuel₂ →
      walkAux fuel₁ l = walkAux fuel₂ l := by
  intro fuel₁
  induction fuel₁ with
  | zero =>
      intro fuel₂ l h₁ _
      cases l with
      | nil => cases fuel₂ <;> simp [walkAux]
      | cons s rest =>
          exfalso
          have := countStmt_children s
          simp [countBody] at h₁
          omega
  | succ f ih =>
      intro fuel₂ l h₁ h₂
      cases l with
      | nil => cases fuel₂ <;> simp [walkAux]
      | cons s rest =>
          cases fuel₂ with
          | zero =>
              exfalso
              have := countStmt_children s
              simp [countBody] at h₂
              omega
          | succ g =>
              simp only [walkAux]
              have hc := countStmt_children s
              have hrest : countBody (rest ++ children s) ≤ f := by
                rw [countBody_append]
                simp [countBody] at h₁
                omega
              have hrest₂ : countBody (rest ++ children s) ≤ g := by
                rw [countBody_append]
                simp [countBody] at h₂
                omega
              rw [ih _ _ hrest hrest₂]

/-- The BFS queue is empty: the walk yields nothing. -/
theorem walk_nil : walk [] = [] := rfl

/-- The BFS recurrence of `ast.walk`: pop the head node, yield it, and
push its child nodes at the back of the queue. -/
theorem walk_cons (s : Stmt) (rest : List Stmt) :
    walk (s :: rest) = s :: walk (rest ++ children s) := by
  show walkAux (countBody (s :: rest)) (s :: rest) = _
  have hc := countStmt_children s
  have h1 : countBody (s :: rest) = countBody (rest ++ children s) + 1 := by
    simp [countBody, countBody_append]
    omega
  rw [h1]
  simp only [walkAux]
  rw [walkAux_fuel (countBody (rest ++ children s)) (countBody (rest ++ children s) + 0)
        (rest ++ children s) (le_refl _) (by omega)]
  simp [walk]

/-! Claim theorems. -/

/-- C1.  The Graph Writer has no upsert path: `.save()` on a fresh
instance always creates a node.  Running `save_project_to_neo4j` a
second time over the same module list and the store produced by the
first run creates a second ModuleNode (and ClassNode) carrying the very
same uniqueness key, instead of updating the existing node — re-running
is not idempotent and the second run does not create zero new nodes. -/
theorem reingest_creates_duplicate_module_nodes :
    (project2neo.save_project_to_neo4j [aModule] emptyStore).moduleNodes.length = 1 ∧
    (project2neo.save_project_to_neo4j [aModule]
        (project2neo.save_project_to_neo4j [aModule] emptyStore)).moduleNodes.length = 2 ∧
    (project2neo.save_project_to_neo4j [aModule]
        (project2neo.save_project_to_neo4j [aModule] emptyStore)).moduleNodes.map
        (fun n => (n.id, n.path)) =
      [(0, ["proj", "a.py"]), (4, ["proj", "a.py"])] ∧
    (project2neo.save_project_to_neo4j [aModule]
        (project2neo.save_project_to_neo4j [aModule] emptyStore)).classNodes.map
        (fun c => c.full_name) =
      ["a.Foo", "a.Foo"] := by
  decide

/-- C2.  In the `pkg/a.py`, `pkg/b.py` scenario where `b.py` contains
`from . import a`, the AST node is `ImportFrom(module=None, level=1)`,
so the `if node.module:` guard of `visit_ImportFrom` records no
reference at all; module `pkg.b` therefore has an empty import list and
the pipeline creates no import edge, contrary to the claimed single
edge `pkg.b → pkg.a`. -/
theorem relative_import_from_dot_yields_no_reference_and_no_edge :
    visitBody [Stmt.importFrom none ["a"] 1] = [] ∧
    (project2neo.find_and_parse_python_files ["proj"] pkgScenario).map
        (fun m => (m.name, m.imports)) =
      [("pkg.a", []), ("pkg.b", [])] ∧
    (project2neo.save_project_to_neo4j
        (project2neo.find_and_parse_python_files ["proj"] pkgScenario)
        emptyStore).importEdges = [] := by
  decide

/-- C3, counterexample.  Resolution is a single scan with the combined
test `name == r or name.endswith("." + r)`, not an exact-match pass
over the whole Index first: with Index order `[x.numpy, numpy, s]` and
module `s` importing `numpy`, the edge goes to the earlier
suffix-matching module node (id 0, name `x.numpy`) even though a module
whose name exactly equals `numpy` (id 1) exists in the Index. -/
theorem exact_match_loses_to_earlier_suffix_match :
    (project2neo.save_project_to_neo4j suffixExample emptyStore).moduleNodes.map
        (fun n => (n.id, n.name)) =
      [(0, "x.numpy"), (1, "numpy"), (2, "s")] ∧
    (project2neo.save_project_to_neo4j suffixExample emptyStore).importEdges =
      [⟨2, 0⟩] := by
  decide

/-- C4, counterexample.  For a file `bad.py` directly under the root
whose parse fails, the `except` branch derives the module name without
stripping the `.py` suffix: the record is named `bad.py`, not the
claimed `bad`. -/
theorem failed_parse_module_name_keeps_suffix :
    (project2neo.parse_python_file ["proj", "bad.py"] ["proj"]
        ParseOutcome.parseError).name = "bad.py" ∧
    claimedModuleName ["proj", "bad.py"] ["proj"] = "bad" ∧
    ("bad.py" : String) ≠ "bad" := by
  decide

/-- C4, amended.  The claimed name derivation (separators to dots,
suffix stripped) holds exactly for successfully parsed files; for every
failure outcome the `except` branch replaces separators by dots but
keeps the suffix. -/
theorem module_name_branches (fp root : List String) (tree : List Stmt) :
    (project2neo.parse_python_file fp root (ParseOutcome.ok tree)).name =
      claimedModuleName fp root ∧
    (project2neo.parse_python_file fp root ParseOutcome.parseError).name =
      String.intercalate "." (relpath fp root) ∧
    (project2neo.parse_python_file fp root ParseOutcome.readError).name =
      String.intercalate "." (relpath fp root) ∧
    (project2neo.parse_python_file fp root ParseOutcome.decodeError).name =
      String.intercalate "." (relpath fp root) :=
  ⟨rfl, rfl, rfl, rfl⟩

/-- C7, counterexample.  The comprehension filters every parameter
whose name is `self`, not only the first instance-reference parameter:
for `def f(x, self)` in a class body the later parameter named `self`
is dropped from the recorded list, which the claim says must be
recorded. -/
theorem later_self_parameter_not_recorded :
    (project2neo.parse_python_file ["r", "m.py"] ["r"]
          (ParseOutcome.ok
            [Stmt.classDef "C" [Stmt.functionDef "f" ["x", "self"] []]])).classes.map
        (fun c => c.methods.map (fun mi => mi.args)) =
      [[["x"]]] ∧
    ¬ ("self" ∈ (["x"] : List String)) := by
  decide

/-- C7, amended.  For every method recorded from a class body, every
parameter named `self` — at any position, not only the first — is
excluded from the recorded parameter list, and all parameters not named
`self` are recorded by name in source order. -/
theorem method_args_filter_all_self (mp cls : String) (body : List Stmt) :
    ((project2neo.classMembers mp cls body).1).map (fun mi => (mi.name, mi.args)) =
      body.filterMap (fun s =>
        match s with
        | Stmt.functionDef n args _ => some (n, args.filter (fun a => a != "self"))
        | Stmt.asyncFunctionDef n args _ => some (n, args.filter (fun a => a != "self"))
        | _ => none) := by
  induction body with
  | nil => rfl
  | cons item rest ih =>
      cases item with
      | importStmt names => simpa [project2neo.classMembers] using ih
      | importFrom m names level => simpa [project2neo.classMembers] using ih
      | classDef n b => simpa [project2neo.classMembers] using ih
      | functionDef n args b => simpa [project2neo.classMembers] using ih
      | asyncFunctionDef n args b => simpa [project2neo.classMembers] using ih
      | exprStmt => simpa [project2neo.classMembers] using ih
      | assign targets =>
          rcases targets with _ | ⟨t, ts⟩
          · simpa [project2neo.classMembers] using ih
          · cases t with
            | name id =>
                rcases ts with _ | ⟨t2, ts2⟩
                · simpa [project2neo.classMembers] using ih
                · simpa [project2neo.classMembers] using ih
            | otherTarget =>
                rcases ts with _ | ⟨t2, ts2⟩
                · simpa [project2neo.classMembers] using ih
                · simpa [project2neo.classMembers] using ih

/-- C8.  For every class body, the recorded attributes are exactly the
single-target assignments whose target is a plain identifier, in source
order, named after that identifier: multi-target assignments,
destructuring targets, and everything nested inside method bodies
contribute nothing. -/
theorem class_attributes_from_single_name_assigns (mp cls : String) (body : List Stmt) :
    ((project2neo.classMembers mp cls body).2).map (fun a => a.name) =
      body.filterMap (fun s =>
        match s with
        | Stmt.assign [Target.name id] => some id
        | _ => none) := by
  induction body with
  | nil => rfl
  | cons item rest ih =>
      cases item with
      | importStmt names => simpa [project2neo.classMembers] using ih
      | importFrom m names level => simpa [project2neo.classMembers] using ih
      | classDef n b => simpa [project2neo.classMembers] using ih
      | functionDef n args b => simpa [project2neo.classMembers] using ih
      | asyncFunctionDef n args b => simpa [project2neo.classMembers] using ih
      | exprStmt => simpa [project2neo.classMembers] using ih
      | assign targets =>
          rcases targets with _ | ⟨t, ts⟩
          · simpa [project2neo.classMembers] using ih
          · cases t with
            | name id =>
                rcases ts with _ | ⟨t2, ts2⟩
                · simpa [project2neo.classMembers] using ih
                · simpa [project2neo.classMembers] using ih
            | otherTarget =>
                rcases ts with _ | ⟨t2, ts2⟩
                · simpa [project2neo.classMembers] using ih
                · simpa [project2neo.classMembers] using ih

/-- C9.  `parse_python_file` is total: whatever failure the read,
decode or parse produced, the `except Exception` branch still returns a
record carrying the file path, with empty imports and empty classes. -/
theorem parse_python_file_failure_record (fp root : List String)
    (outcome : ParseOutcome) (h : ∀ t, outcome ≠ ParseOutcome.ok t) :
    (project2neo.parse_python_file fp root outcome).path = fp ∧
    (project2neo.parse_python_file fp root outcome).imports = [] ∧
    (project2neo.parse_python_file fp root outcome).classes = [] := by
  cases outcome with
  | ok t => exact absurd rfl (h t)
  | readError => exact ⟨rfl, rfl, rfl⟩
  | decodeError => exact ⟨rfl, rfl, rfl⟩
  | parseError => exact ⟨rfl, rfl, rfl⟩

/-! Lemmas about the import-resolution and writing phase. -/

theorem resolveImport_ne_source (mn : List (List String × Nat)) (sid : Nat) (r : String) :
    ∀ mods tid, project2neo.resolveImport mn sid r mods = some tid → tid ≠ sid := by
  intro mods
  induction mods with
  | nil => intro tid h; simp [project2neo.resolveImport] at h
  | cons t rest ih =>
      intro tid h
      by_cases hc : (t.name == r || strEndsWith t.name ("." ++ r)) = true
      · cases hl : project2neo.lookupNode mn t.path with
        | some tid' =>
            by_cases ht : tid' = sid
            · simp [project2neo.resolveImport, hc, hl, ht] at h
              exact ih tid h
            · simp [project2neo.resolveImport, hc, hl, ht] at h
              subst h
              exact ht
        | none =>
            simp [project2neo.resolveImport, hc, hl] at h
            exact ih tid h
      · simp [project2neo.resolveImport, hc] at h
        exact ih tid h

theorem resolveImport_eq_head_candidates (mn : List (List String × Nat)) (sid : Nat)
    (r : String) :
    ∀ mods, project2neo.resolveImport mn sid r mods =
      (mods.filterMap (importCandidate mn sid r)).head? := by
  intro mods
  induction mods with
  | nil => rfl
  | cons t rest ih =>
      by_cases hc : (t.name == r || strEndsWith t.name ("." ++ r)) = true
      · cases hl : project2neo.lookupNode mn t.path with
        | some tid =>
            by_cases ht : tid = sid
            · simp [project2neo.resolveImport, importCandidate, hc, hl, ht, ih]
            · simp [project2neo.resolveImport, importCandidate, hc, hl, ht]
        | none => simp [project2neo.resolveImport, importCandidate, hc, hl, ih]
      · simp [project2neo.resolveImport, importCandidate, hc, ih]

theorem connectOne_adds (full : List ModuleRecord) (mn : List (List String × Nat))
    (sid : Nat) (st : Store) (r : String) :
    ∃ es, project2neo.connectOne full mn sid st r =
        { st with importEdges := st.importEdges ++ es } ∧
      ∀ e ∈ es, e.src = sid ∧ e.tgt ≠ sid := by
  unfold project2neo.connectOne
  cases h : project2neo.resolveImport mn sid r full with
  | some tid =>
      refine ⟨[⟨sid, tid⟩], rfl, ?_⟩
      intro e he
      simp at he
      subst he
      exact ⟨rfl, resolveImport_ne_source mn sid r full tid h⟩
  | none => exact ⟨[], by simp, by simp⟩

theorem foldl_connectOne_adds (full : List ModuleRecord) (mn : List (List String × Nat))
    (sid : Nat) :
    ∀ (rs : List String) (st : Store),
      ∃ es, rs.foldl (project2neo.connectOne full mn sid) st =
        { st with importEdges := st.importEdges ++ es } ∧
      ∀ e ∈ es, e.src = sid ∧ e.tgt ≠ sid := by
  intro rs
  induction rs with
  | nil => intro st; exact ⟨[], by simp, by simp⟩
  | cons r rest ih =>
      intro st
      obtain ⟨es₁, h₁, hp₁⟩ := connectOne_adds full mn sid st r
      obtain ⟨es₂, h₂, hp₂⟩ := ih (project2neo.connectOne full mn sid st r)
      refine ⟨es₁ ++ es₂, ?_, ?_⟩
      · rw [List.foldl_cons, h₂, h₁]
        simp [List.append_assoc]
      · intro e he
        rcases List.mem_append.mp he with h | h
        exacts [hp₁ e h, hp₂ e h]

theorem connectModule_adds (full : List ModuleRecord) (mn : List (List String × Nat))
    (st : Store) (m : ModuleRecord) :
    ∃ es, project2neo.connectModule full mn st m =
        { st with importEdges := st.importEdges ++ es } ∧
      ∀ e ∈ es, e.src ≠ e.tgt := by
  unfold project2neo.connectModule
  cases hl : project2neo.lookupNode mn m.path with
  | none => exact ⟨[], by simp, by simp⟩
  | some sid =>
      obtain ⟨es, h, hp⟩ := foldl_connectOne_adds full mn sid m.imports st
      refine ⟨es, h, ?_⟩
      intro e he
      obtain ⟨h₁, h₂⟩ := hp e he
      rw [h₁]
      exact fun hx => h₂ hx.symm

theorem connectImports_adds (full : List ModuleRecord) (mn : List (List String × Nat)) :
    ∀ (mods : List ModuleRecord) (st : Store),
      ∃ es, mods.foldl (project2neo.connectModule full mn) st =
        { st with importEdges := st.importEdges ++ es } ∧
      ∀ e ∈ es, e.src ≠ e.tgt := by
  intro mods
  induction mods with
  | nil => intro st; exact ⟨[], by simp, by simp⟩
  | cons m rest ih =>
      intro st
      obtain ⟨es₁, h₁, hp₁⟩ := connectModule_adds full mn st m
      obtain ⟨es₂, h₂, hp₂⟩ := ih (project2neo.connectModule full mn st m)
      refine ⟨es₁ ++ es₂, ?_, ?_⟩
      · rw [List.foldl_cons, h₂, h₁]
        simp [List.append_assoc]
      · intro e he
        rcases List.mem_append.mp he with h | h
        exacts [hp₁ e h, hp₂ e h]

theorem foldl_saveMethod_imports (cid : Nat) :
    ∀ (l : List MethodInfo) (st : Store),
      (l.foldl (project2neo.saveMethod cid) st).importEdges = st.importEdges := by
  intro l
  induction l with
  | nil => intro st; rfl
  | cons m rest ih => intro st; rw [List.foldl_cons, ih]; rfl

theorem foldl_saveAttribute_imports (cid : Nat) :
    ∀ (l : List AttrInfo) (st : Store),
      (l.foldl (project2neo.saveAttribute cid) st).importEdges = st.importEdges := by
  intro l
  induction l with
  | nil => intro st; rfl
  | cons a rest ih => intro st; rw [List.foldl_cons, ih]; rfl

theorem foldl_saveClass_imports (mid : Nat) :
    ∀ (l : List ClassInfo) (st : Store),
      (l.foldl (project2neo.saveClass mid) st).importEdges = st.importEdges := by
  intro l
  induction l with
  | nil => intro st; rfl
  | cons c rest ih =>
      intro st
      rw [List.foldl_cons, ih]
      unfold project2neo.saveClass
      rw [foldl_saveAttribute_imports, foldl_saveMethod_imports]

theorem phase1_imports :
    ∀ (mods : List ModuleRecord) (acc : Store × List (List String × Nat)),
      ((mods.foldl project2neo.saveModule acc).1).importEdges = acc.1.importEdges := by
  intro mods
  induction mods with
  | nil => intro acc; rfl
  | cons m rest ih =>
      intro acc
      rw [List.foldl_cons, ih]
      unfold project2neo.saveModule
      rw [foldl_saveClass_imports]

/-- C3, amended.  Resolution is one left-to-right scan of the Index
that stops at the first module satisfying the combined test
`name == r or name.endswith("." + r)` whose node exists and is not the
source node; there is no prior exact-match pass over the whole Index.
If no module passes, the reference is dropped silently: the connection
phase adds import edges only and creates no node of any kind. -/
theorem resolveImport_single_pass_first_match :
    (∀ (mn : List (List String × Nat)) (sid : Nat) (r : String)
        (mods : List ModuleRecord),
        project2neo.resolveImport mn sid r mods =
          (mods.filterMap (importCandidate mn sid r)).head?) ∧
    (∀ (mods : List ModuleRecord) (mn : List (List String × Nat)) (st : Store),
        ∃ es, project2neo.connectImports mods mn st =
          { st with importEdges := st.importEdges ++ es }) :=
  ⟨fun mn sid r mods => resolveImport_eq_head_candidates mn sid r mods,
   fun mods mn st =>
     (connectImports_adds mods mn mods st).elim (fun es h => ⟨es, h.1⟩)⟩

/-- C5.  Every import edge present after a run of the writer either was
already in the store or is not a self-loop: the
`target_node != source_node` guard means no module ever gets an
IMPORTS edge to itself, even when its source textually imports a
reference that resolves to the module itself. -/
theorem import_edges_never_self_loops (modules : List ModuleRecord) (st : Store)
    (e : Edge)
    (h : e ∈ (project2neo.save_project_to_neo4j modules st).importEdges) :
    e ∈ st.importEdges ∨ e.src ≠ e.tgt := by
  simp only [project2neo.save_project_to_neo4j, project2neo.connectImports] at h
  obtain ⟨es, heq, hp⟩ :=
    connectImports_adds modules (modules.foldl project2neo.saveModule (st, [])).2
      modules (modules.foldl project2neo.saveModule (st, [])).1
  rw [heq] at h
  simp only [phase1_imports] at h
  rcases List.mem_append.mp h with h | h
  · exact Or.inl h
  · exact Or.inr (hp e h)

/-- Witness for C5: module `a` imports itself and `b`; the run creates
exactly the edge `a → b` and the self-import produces no loop. -/
theorem import_edges_never_self_loops_witness :
    (⟨0, 1⟩ : Edge) ∈
        (project2neo.save_project_to_neo4j selfImportExample emptyStore).importEdges ∧
    ((⟨0, 1⟩ : Edge) ∈ emptyStore.importEdges ∨ (0 : Nat) ≠ 1) :=
  ⟨by decide,
   import_edges_never_self_loops selfImportExample emptyStore ⟨0, 1⟩ (by decide)⟩

/-- Witness for C9 at a concrete unreadable file. -/
theorem parse_python_file_failure_record_witness :
    (project2neo.parse_python_file ["p", "x.py"] ["p"] ParseOutcome.readError).path =
      ["p", "x.py"] ∧
    (project2neo.parse_python_file ["p", "x.py"] ["p"] ParseOutcome.readError).imports = [] ∧
    (project2neo.parse_python_file ["p", "x.py"] ["p"] ParseOutcome.readError).classes = [] :=
  parse_python_file_failure_record ["p", "x.py"] ["p"] ParseOutcome.readError
    (fun _ ht => ParseOutcome.noConfusion ht)

/-- C6.  Parse-failure isolation: among N successfully parsed files and
one file whose read/parse fails, the run yields one record per file in
walk order — the N valid files give their fully-populated records and
the failing file gives a record with empty imports and classes; nothing
is aborted or dropped. -/
theorem parse_failure_isolation (root : List String)
    (pre post : List (List String × List Stmt)) (badPath : List String)
    (bad : ParseOutcome)
    (hbad : ∀ t, bad ≠ ParseOutcome.ok t)
    (hpre : ∀ f ∈ pre, strEndsWith (f.1.getLastD "") ".py" = true)
    (hbadpy : strEndsWith (badPath.getLastD "") ".py" = true)
    (hpost : ∀ f ∈ post, strEndsWith (f.1.getLastD "") ".py" = true) :
    project2neo.find_and_parse_python_files root
        (pre.map (fun f => (f.1, ParseOutcome.ok f.2)) ++ [(badPath, bad)] ++
          post.map (fun f => (f.1, ParseOutcome.ok f.2))) =
      pre.map (fun f => project2neo.parse_python_file f.1 root (ParseOutcome.ok f.2)) ++
        [project2neo.parse_python_file badPath root bad] ++
        post.map (fun f => project2neo.parse_python_file f.1 root (ParseOutcome.ok f.2)) ∧
    (project2neo.find_and_parse_python_files root
        (pre.map (fun f => (f.1, ParseOutcome.ok f.2)) ++ [(badPath, bad)] ++
          post.map (fun f => (f.1, ParseOutcome.ok f.2)))).length =
      pre.length + post.length + 1 ∧
    (project2neo.parse_python_file badPath root bad).imports = [] ∧
    (project2neo.parse_python_file badPath root bad).classes = [] := by
  have hempty : (project2neo.parse_python_file badPath root bad).imports = [] ∧
      (project2neo.parse_python_file badPath root bad).classes = [] := by
    cases bad with
    | ok t => exact absurd rfl (hbad t)
    | readError => exact ⟨rfl, rfl⟩
    | decodeError => exact ⟨rfl, rfl⟩
    | parseError => exact ⟨rfl, rfl⟩
  have hfilter :
      (pre.map (fun f => (f.1, ParseOutcome.ok f.2)) ++ [(badPath, bad)] ++
          post.map (fun f => (f.1, ParseOutcome.ok f.2))).filter
        (fun f => strEndsWith (f.1.getLastD "") ".py") =
      pre.map (fun f => (f.1, ParseOutcome.ok f.2)) ++ [(badPath, bad)] ++
        post.map (fun f => (f.1, ParseOutcome.ok f.2)) := by
    apply List.filter_eq_self.mpr
    intro a ha
    rcases List.mem_append.mp ha with ha | ha
    · rcases List.mem_append.mp ha with ha | ha
      · obtain ⟨f, hf, rfl⟩ := List.mem_map.mp ha
        exact hpre f hf
      · rw [List.mem_singleton.mp ha]
        exact hbadpy
    · obtain ⟨f, hf, rfl⟩ := List.mem_map.mp ha
      exact hpost f hf
  have hmain :
      project2neo.find_and_parse_python_files root
          (pre.map (fun f => (f.1, ParseOutcome.ok f.2)) ++ [(badPath, bad)] ++
            post.map (fun f => (f.1, ParseOutcome.ok f.2))) =
        pre.map (fun f => project2neo.parse_python_file f.1 root (ParseOutcome.ok f.2)) ++
          [project2neo.parse_python_file badPath root bad] ++
          post.map (fun f => project2neo.parse_python_file f.1 root (ParseOutcome.ok f.2)) := by
    unfold project2neo.find_and_parse_python_files
    rw [hfilter]
    simp only [List.map_append, List.map_map, List.map_cons, List.map_nil]
    rfl
  refine ⟨hmain, ?_, hempty.1, hempty.2⟩
  rw [hmain]
  simp [List.length_append]
  omega

/-- Witness for C6: one valid file `a.py` plus one file `bad.py` with a
syntax error. -/
theorem parse_failure_isolation_witness :
    project2neo.find_and_parse_python_files ["p"]
        [(["p", "a.py"], ParseOutcome.ok []), (["p", "bad.py"], ParseOutcome.parseError)] =
      [project2neo.parse_python_file ["p", "a.py"] ["p"] (ParseOutcome.ok []),
       project2neo.parse_python_file ["p", "bad.py"] ["p"] ParseOutcome.parseError] ∧
    (project2neo.find_and_parse_python_files ["p"]
        [(["p", "a.py"], ParseOutcome.ok []),
         (["p", "bad.py"], ParseOutcome.parseError)]).length = 2 ∧
    (project2neo.parse_python_file ["p", "bad.py"] ["p"]
        ParseOutcome.parseError).imports = [] ∧
    (project2neo.parse_python_file ["p", "bad.py"] ["p"]
        ParseOutcome.parseError).classes = [] :=
  parse_failure_isolation ["p"] [(["p", "a.py"], [])] [] ["p", "bad.py"]
    ParseOutcome.parseError (fun _ ht => ParseOutcome.noConfusion ht)
    (by decide) (by decide) (by decide)

/-! Lemmas for the refinement between the two extractors. -/

theorem classMembers_forget (mp cls : String) (body : List Stmt) :
    python2neo.classMembers body =
      (((project2neo.classMembers mp cls body).1).map
          (fun m => (⟨m.name, m.args⟩ : python2neo.PyMethodInfo)),
       ((project2neo.classMembers mp cls body).2).map (fun a => a.name)) := by
  induction body with
  | nil => rfl
  | cons item rest ih =>
      cases item with
      | importStmt names =>
          simpa [python2neo.classMembers, project2neo.classMembers] using ih
      | importFrom m names level =>
          simpa [python2neo.classMembers, project2neo.classMembers] using ih
      | classDef n b =>
          simpa [python2neo.classMembers, project2neo.classMembers] using ih
      | functionDef n args b =>
          simp [python2neo.classMembers, project2neo.classMembers, ih]
      | asyncFunctionDef n args b =>
          simp [python2neo.classMembers, project2neo.classMembers, ih]
      | exprStmt =>
          simpa [python2neo.classMembers, project2neo.classMembers] using ih
      | assign targets =>
          rcases targets with _ | ⟨t, ts⟩
          · simpa [python2neo.classMembers, project2neo.classMembers] using ih
          · cases t with
            | name id =>
                rcases ts with _ | ⟨t2, ts2⟩
                · simp [python2neo.classMembers, project2neo.classMembers, ih]
                · simpa [python2neo.classMembers, project2neo.classMembers] using ih
            | otherTarget =>
                rcases ts with _ | ⟨t2, ts2⟩
                · simpa [python2neo.classMembers, project2neo.classMembers] using ih
                · simpa [python2neo.classMembers, project2neo.classMembers] using ih

theorem classInfoOf_forget (mp : String) (node : Stmt) :
    python2neo.classInfoOf node =
      (project2neo.classInfoOf mp node).map forgetFullName := by
  cases node with
  | classDef n body =>
      simp [python2neo.classInfoOf, project2neo.classInfoOf, forgetFullName,
        classMembers_forget mp n body]
  | importStmt names => rfl
  | importFrom m names level => rfl
  | functionDef n args b => rfl
  | asyncFunctionDef n args b => rfl
  | assign targets => rfl
  | exprStmt => rfl

theorem filterMap_classInfo_forget (mp : String) :
    ∀ l : List Stmt,
      l.filterMap python2neo.classInfoOf =
        (l.filterMap (project2neo.classInfoOf mp)).map forgetFullName := by
  intro l
  induction l with
  | nil => rfl
  | cons s rest ih =>
      rw [List.filterMap_cons, List.filterMap_cons, classInfoOf_forget mp s]
      cases h : project2neo.classInfoOf mp s with
      | none => simpa using ih
      | some c => simp [ih]

/-- C10.  On any successfully parsed file text, the classes extracted
by `python2neo.parse_python_file` are exactly the classes extracted by
`project2neo.parse_python_file` with the `full_name` fields forgotten:
same class sequence, same method names and parameter lists, same
attribute names, in the same order. -/
theorem python2neo_matches_project2neo_classes (fp root : List String)
    (tree : List Stmt) :
    python2neo.parse_python_file tree =
      ((project2neo.parse_python_file fp root (ParseOutcome.ok tree)).classes).map
        forgetFullName := by
  show (walk tree).filterMap python2neo.classInfoOf = _
  exact filterMap_classInfo_forget _ (walk tree)

end Python2Neo
